import Mathlib

/-!
Verification development for the AiPainter layered raster editor.

The definitions below are a shallow embedding of the parts of the source
that the verified properties talk about:

* the command based undo system (`PaintCommand`, `UndoStack`),
* the layer tree mutation primitives (`Forest.add_child`, `Forest.remove_child`),
* the eraser blend equation of the brush engine,
* the compositor walk (`render_node`, `get_parent_opacity`),
* project persistence (`to_dict`, `save_project`, `build_tree`, `load_project`),
* the stroke stamp loop of `_paint_stroke`,
* the selection transform commit (`commit_transform`).

Pixel buffers are modelled as flat lists of byte values; GPU texture I/O
(`load_from_image` / `get_image`) is modelled as replacing / reading that
buffer.  Machine floats of the source are modelled as rationals.
-/

namespace AiPainter

/-- A pixel buffer, as produced by `PaintLayer.get_image` and consumed by
`PaintLayer.load_from_image` (a flat list of byte values). -/
abbrev Img := List Nat

/-- The pixel stores of all layers, indexed by layer identity. -/
abbrev Layers := Nat → Img

/-- `PaintCommand` from the undo module: a target layer reference plus the
before and after pixel snapshots. -/
structure PaintCommand where
  layer : Nat
  old_img : Img
  new_img : Img

/-- `PaintCommand.undo`: load the before buffer into the target layer.
The source guards on a live layer reference (`if self.layer:`); commands are
always constructed with one, so the guard never skips. -/
def PaintCommand.undo (c : PaintCommand) (L : Layers) : Layers :=
  fun i => if i = c.layer then c.old_img else L i

/-- `PaintCommand.redo`: load the after buffer into the target layer. -/
def PaintCommand.redo (c : PaintCommand) (L : Layers) : Layers :=
  fun i => if i = c.layer then c.new_img else L i

/-- `UndoStack`: two ordered command lists plus the capacity bound.
Index 0 is the oldest entry, matching the Python lists. -/
structure UndoStack where
  undo_list : List PaintCommand
  redo_list : List PaintCommand
  limit : Nat

/-- A fresh `UndoStack` (the constructor, default limit 30). -/
def UndoStack.fresh (limit : Nat) : UndoStack :=
  { undo_list := [], redo_list := [], limit := limit }

/-- `UndoStack.push`: append the command, clear `redo_list`, then evict the
oldest entry (index 0) if the capacity is exceeded. -/
def UndoStack.push (s : UndoStack) (cmd : PaintCommand) : UndoStack :=
  let ul := s.undo_list ++ [cmd]
  { undo_list := if s.limit < ul.length then ul.tail else ul
    redo_list := []
    limit := s.limit }

/-- `UndoStack.undo`: failure on an empty list, otherwise pop the newest
command, restore its before buffer, and move it to `redo_list`.  The `Bool`
is the returned success flag. -/
def UndoStack.undo (s : UndoStack) (L : Layers) : UndoStack × Layers × Bool :=
  match s.undo_list.getLast? with
  | none => (s, L, false)
  | some cmd =>
      ({ undo_list := s.undo_list.dropLast
         redo_list := s.redo_list ++ [cmd]
         limit := s.limit }, cmd.undo L, true)

/-- `UndoStack.redo`: symmetric to `UndoStack.undo`, using the after buffer. -/
def UndoStack.redo (s : UndoStack) (L : Layers) : UndoStack × Layers × Bool :=
  match s.redo_list.getLast? with
  | none => (s, L, false)
  | some cmd =>
      ({ undo_list := s.undo_list ++ [cmd]
         redo_list := s.redo_list.dropLast
         limit := s.limit }, cmd.redo L, true)

/-- One recorded edit: the caller mutates the target layer (which then holds
exactly the command's after buffer, that being what `new_img` snapshots) and
pushes the command, as `mouseReleaseEvent` does per stroke. -/
def pushEdit (sL : UndoStack × Layers) (cmd : PaintCommand) : UndoStack × Layers :=
  (sL.1.push cmd, cmd.redo sL.2)

/-- A sequence of recorded edits, oldest first. -/
def pushEdits (sL : UndoStack × Layers) (cmds : List PaintCommand) : UndoStack × Layers :=
  cmds.foldl pushEdit sL

/-- Call `undo()` a given number of times, discarding the success flags. -/
def undoTimes : Nat → UndoStack × Layers → UndoStack × Layers
  | 0, sL => sL
  | n + 1, sL =>
      let r := sL.1.undo sL.2
      undoTimes n (r.1, r.2.1)

/-- Call `redo()` a given number of times, discarding the success flags. -/
def redoTimes : Nat → UndoStack × Layers → UndoStack × Layers
  | 0, sL => sL
  | n + 1, sL =>
      let r := sL.1.redo sL.2
      redoTimes n (r.1, r.2.1)

/-- Call `undo()` a given number of times and collect the success flags. -/
def undoResults : Nat → UndoStack × Layers → List Bool
  | 0, _ => []
  | n + 1, sL =>
      let r := sL.1.undo sL.2
      r.2.2 :: undoResults n (r.1, r.2.1)

/-- The state after pushing a command list onto a fresh stack of the given
limit over an initial layer store. -/
def pushedState (N : Nat) (cmds : List PaintCommand) (L0 : Layers) :
    UndoStack × Layers :=
  pushEdits (UndoStack.fresh N, L0) cmds

/-- The state after the pushes, then `undo()` once per pushed command, then
`redo()` once per pushed command. -/
def cycledState (N : Nat) (cmds : List PaintCommand) (L0 : Layers) :
    UndoStack × Layers :=
  redoTimes cmds.length (undoTimes cmds.length (pushedState N cmds L0))

/-- The stack API surface exercised by the rest of the editor. -/
inductive HistOp where
  | push (cmd : PaintCommand)
  | undo
  | redo

/-- Execute one stack operation (a push always accompanies the edit that it
records). -/
def applyHistOp (sL : UndoStack × Layers) : HistOp → UndoStack × Layers
  | .push cmd => pushEdit sL cmd
  | .undo =>
      let r := sL.1.undo sL.2
      (r.1, r.2.1)
  | .redo =>
      let r := sL.1.redo sL.2
      (r.1, r.2.1)

/-- Execute a sequence of stack operations. -/
def runHistOps (sL : UndoStack × Layers) (ops : List HistOp) : UndoStack × Layers :=
  ops.foldl applyHistOp sL

/-- Replay the recorded edits, oldest first (fold of `PaintCommand.redo`). -/
def applyAll (cmds : List PaintCommand) (L : Layers) : Layers :=
  cmds.foldl (fun L c => c.redo L) L

/-- Undo the recorded edits, newest first (fold of `PaintCommand.undo`). -/
def undoAll (cmds : List PaintCommand) (L : Layers) : Layers :=
  cmds.foldr (fun c L => c.undo L) L

/-- Replay commands from a redo list, popping from its end (fold of
`PaintCommand.redo` from the right). -/
def redoAll (cmds : List PaintCommand) (L : Layers) : Layers :=
  cmds.foldr (fun c L => c.redo L) L

/-- Concrete command list for the 35-push scenario. -/
def scenario35 : List PaintCommand :=
  (List.range 35).map (fun i => { layer := i, old_img := [0], new_img := [i] })

/-- Concrete initial layer store for the scenarios (all layers blank). -/
def blankLayers : Layers := fun _ => []

/-!  The layer tree mutation primitives of `src/core/logic.py`.  The object
graph is modelled as an arena keyed by node identity: `parent` is the parent
back reference of each node, `children` its child list.  -/

/-- The mutable node graph: per node, the `parent` back reference and the
ordered `children` list. -/
structure Forest where
  parent : Nat → Option Nat
  children : Nat → List Nat

/-- `Node.add_child(node)`: set `node.parent = self` and append `node` to
`self.children`.  `p` is the receiver, `c` the argument. -/
def Forest.add_child (s : Forest) (p c : Nat) : Forest :=
  { parent := fun n => if n = c then some p else s.parent n
    children := fun n => if n = p then s.children p ++ [c] else s.children n }

/-- `Node.remove_child(node)`: if `node` is among `self.children`, remove its
first occurrence and clear `node.parent`; otherwise do nothing. -/
def Forest.remove_child (s : Forest) (p c : Nat) : Forest :=
  if c ∈ s.children p then
    { parent := fun n => if n = c then none else s.parent n
      children := fun n => if n = p then (s.children p).erase c else s.children n }
  else s

/-- Follow `parent` references for the given number of steps; `none` means
the chain reached a root strictly before running out of fuel. -/
def Forest.iterParent (s : Forest) : Nat → Nat → Option Nat
  | 0, n => some n
  | k + 1, n =>
      match s.parent n with
      | none => none
      | some m => s.iterParent k m

/-- The tree consistency invariant: each node listed as a child has its
parent reference set to that container and to no other, child lists hold no
duplicates, and every parent chain terminates (acyclicity). -/
def Forest.Inv (s : Forest) : Prop :=
  (∀ m n, n ∈ s.children m → s.parent n = some m) ∧
  (∀ n m, s.parent n = some m → n ∈ s.children m) ∧
  (∀ m, (s.children m).Nodup) ∧
  (∀ n, ∃ k, s.iterParent k n = none)

/-- Concrete two node forest: node 1 is the only child of node 0. -/
def exForest : Forest :=
  { parent := fun n => if n = 1 then some 0 else none
    children := fun n => if n = 0 then [1] else [] }

/-!  The eraser branch of `GLCanvas._paint_stroke`.  Colour values are
rationals in the unit interval; the brush tip texture is white RGB with the
grayscale tip as alpha (`_update_brush_texture`). -/

/-- One RGBA colour value. -/
structure RGBA where
  r : ℚ
  g : ℚ
  b : ℚ
  a : ℚ
deriving DecidableEq

/-- Fixed function texturing: the vertex colour set by `glColor4f` is
modulated channelwise with the texel. -/
def modulate (c t : RGBA) : RGBA :=
  { r := c.r * t.r, g := c.g * t.g, b := c.b * t.b, a := c.a * t.a }

/-- `glBlendFunc(GL_ZERO, GL_ONE_MINUS_SRC_ALPHA)` with
`glBlendEquation(GL_FUNC_ADD)`: every destination channel, colour and alpha
alike, is scaled by one minus the source alpha. -/
def blendZeroOneMinusSrcAlpha (src dst : RGBA) : RGBA :=
  { r := src.r * 0 + dst.r * (1 - src.a)
    g := src.g * 0 + dst.g * (1 - src.a)
    b := src.b * 0 + dst.b * (1 - src.a)
    a := src.a * 0 + dst.a * (1 - src.a) }

/-- A tip texel: white RGB carrying the grayscale tip value as alpha. -/
def eraserTipTexel (t : ℚ) : RGBA := { r := 1, g := 1, b := 1, a := t }

/-- One eraser stamp at a pixel: the eraser branch sets
`glColor4f(0, 0, 0, opacity)`, modulates with the tip texel, and blends with
`GL_ZERO, GL_ONE_MINUS_SRC_ALPHA`. -/
def eraserStamp (opacity tipAlpha : ℚ) (dst : RGBA) : RGBA :=
  blendZeroOneMinusSrcAlpha
    (modulate { r := 0, g := 0, b := 0, a := opacity } (eraserTipTexel tipAlpha)) dst

/-!  The compositor walk, `GLCanvas._render_node` and
`GLCanvas._get_parent_opacity`.  Rendering is modelled as the list of
draw calls it issues: one `(layer id, applied opacity factor)` pair per
textured quad. -/

/-- A node of the render tree: groups recurse, paint layers draw. -/
inductive RNode where
  | group (visible : Bool) (opacity : ℚ) (children : List RNode)
  | paint (visible : Bool) (opacity : ℚ) (layerId : Nat)

/-- `_get_parent_opacity`: walk the ancestors from the immediate parent up
to, and excluding, the document root; return 0 as soon as an invisible
ancestor is met, otherwise the product of their opacities. -/
def get_parent_opacity : List (Bool × ℚ) → ℚ
  | [] => 1
  | (vis, op) :: rest => if vis = false then 0 else op * get_parent_opacity rest

mutual

/-- `_render_node`: an invisible node is skipped with its whole subtree; a
group recurses into its children in order; a paint layer draws one quad with
colour factor `node.opacity * _get_parent_opacity(node)`.  The ancestor list
carries the ancestors strictly below the root, nearest first, which is
exactly the chain `_get_parent_opacity` walks. -/
def render_node : RNode → List (Bool × ℚ) → List (Nat × ℚ)
  | .group vis op cs, anc =>
      if vis = false then [] else render_children cs ((vis, op) :: anc)
  | .paint vis op lid, anc =>
      if vis = false then [] else [(lid, op * get_parent_opacity anc)]

/-- The in order walk over a child list. -/
def render_children : List RNode → List (Bool × ℚ) → List (Nat × ℚ)
  | [], _ => []
  | c :: cs, anc => render_node c anc ++ render_children cs anc

end

/-- `paintGL` calls `_render_node(self.root)`: the root participates with its
visibility, but the ancestor walk of every descendant stops at the root, so
the opacity of the root itself is never multiplied in. -/
def render_root : RNode → List (Nat × ℚ)
  | .group vis _ cs => if vis = false then [] else render_children cs []
  | .paint vis op lid => if vis = false then [] else [(lid, op * get_parent_opacity [])]

/-- The concrete nesting of the opacity composition property: a document
root holding one group (`v1`, `o1`) holding one group (`v2`, `o2`) holding
one paint layer (`v3`, `o3`). -/
def nestedDoc (rootOp o1 o2 o3 : ℚ) (v1 v2 v3 : Bool) (lid : Nat) : RNode :=
  .group true rootOp [.group v1 o1 [.group v2 o2 [.paint v3 o3 lid]]]

/-!  Project persistence, `ProjectLogic.save_project` / `load_project` and
the node serialisation `to_dict` of `src/core/logic.py`.  The archive is
modelled as the manifest record plus the uuid keyed image files.  PIL text
rendering (the `TextLayer` constructor) is kept as a parameter. -/

/-- The text attributes a `TextLayer` carries and serialises. -/
structure TextInfo where
  text_content : String
  font_size : Nat
  text_color : Nat × Nat × Nat × Nat
  pos_x : Int
  pos_y : Int

/-- A document node.  `uuid` is optional as in the source; `to_dict` assigns
a fresh uuid to a paint layer that lacks one, so at save time every paint
layer carries `some` uuid (round trip statements hypothesise that).  Paint
and text layers are leaves by construction (`PaintLayer.add_child` rejects
children). -/
inductive PNode where
  | group (name : String) (visible : Bool) (opacity : ℚ) (children : List PNode)
  | paint (name : String) (visible : Bool) (opacity : ℚ) (uuid : Option Nat) (img : Img)
  | text (name : String) (visible : Bool) (opacity : ℚ) (uuid : Option Nat) (img : Img)
      (tinfo : TextInfo)

/-- One serialised node record, the dictionary `to_dict` produces: the type
tag, the common attributes, the child records, and for paint and text layers
the uuid and the text attributes.  The width and height entries of the
source dictionary are dropped: `load_project` never reads them. -/
inductive NodeDict where
  | mk (type : String) (name : String) (visible : Bool) (opacity : ℚ)
      (children : List NodeDict) (uuid : Option Nat) (tinfo : Option TextInfo)

/-- The child records of a serialised node. -/
def NodeDict.children : NodeDict → List NodeDict
  | .mk _ _ _ _ cs _ _ => cs

mutual

/-- `Node.to_dict` with the subclass overrides: the type tag is the class
name, children are serialised in order, paint and text layers add their
uuid, text layers their text attributes. -/
def to_dict : PNode → NodeDict
  | .group n v o cs => .mk "GroupLayer" n v o (to_dict_list cs) none none
  | .paint n v o u _ => .mk "PaintLayer" n v o [] u none
  | .text n v o u _ ti => .mk "TextLayer" n v o [] u (some ti)

/-- Serialisation of a child list, in order. -/
def to_dict_list : List PNode → List NodeDict
  | [] => []
  | c :: cs => to_dict c :: to_dict_list cs

end

mutual

/-- `save_layer_images`: the pre order walk writing one image file per paint
layer (text layers included, being paint layers), keyed by uuid. -/
def save_layer_images : PNode → List (Option Nat × Img)
  | .group _ _ _ cs => save_images_list cs
  | .paint _ _ _ u img => [(u, img)]
  | .text _ _ _ u img _ => [(u, img)]

/-- The image files contributed by a child list, in walk order. -/
def save_images_list : List PNode → List (Option Nat × Img)
  | [] => []
  | c :: cs => save_layer_images c ++ save_images_list cs

end

/-- The archive `save_project` writes: the manifest (document width and
height plus the serialised root) and the per layer image files. -/
structure ProjectArchive where
  width : Nat
  height : Nat
  rootDict : NodeDict
  images : List (Option Nat × Img)

/-- `ProjectLogic.save_project`. -/
def save_project (root : PNode) (width height : Nat) : ProjectArchive :=
  { width := width, height := height, rootDict := to_dict root
    images := save_layer_images root }

/-- The zero initialised buffer a fresh `PaintLayer` holds (`setup` clears
the texture to transparent). -/
def blankImg (w h : Nat) : Img := List.replicate (4 * (w * h)) 0

/-- Stand in for PIL text rasterisation: what the `TextLayer` constructor
paints from the text attributes at document size. -/
abbrev TextRenderer := TextInfo → Nat → Nat → Img

/-- The defaults `build_tree` passes for absent text attributes. -/
def defaultTextInfo : TextInfo :=
  { text_content := "Text", font_size := 50, text_color := (0, 0, 0, 255)
    pos_x := 0, pos_y := 0 }

mutual

/-- `build_tree` for a single record: a group record rebuilds a `GroupLayer`
and recurses; a paint or text record rebuilds the layer at document size,
restores the common attributes and the uuid, and loads the image file keyed
by that uuid when it exists, keeping the constructor content otherwise; any
other type tag adds nothing. -/
def build_tree (tr : TextRenderer) (w h : Nat) (store : List (Option Nat × Img)) :
    NodeDict → Option PNode
  | .mk ty name vis op cs u ti =>
      if ty = "GroupLayer" then
        some (.group name vis op (build_tree_list tr w h store cs))
      else if ty = "PaintLayer" ∨ ty = "TextLayer" then
        let info := ti.getD defaultTextInfo
        let baseImg := if ty = "TextLayer" then tr info w h else blankImg w h
        let img :=
          match store.lookup u with
          | some im => im
          | none => baseImg
        if ty = "TextLayer" then some (.text name vis op u img info)
        else some (.paint name vis op u img)
      else none

/-- The loop `for child_data in ...: build_tree(child_data, parent)`:
rebuilt children are appended in order, skipped records add nothing. -/
def build_tree_list (tr : TextRenderer) (w h : Nat) (store : List (Option Nat × Img)) :
    List NodeDict → List PNode
  | [] => []
  | d :: ds =>
      match build_tree tr w h store d with
      | some t => t :: build_tree_list tr w h store ds
      | none => build_tree_list tr w h store ds

end

/-- `ProjectLogic.load_project`: read width and height from the manifest,
create a fresh default root (`GroupLayer("Root")`, visible, opacity 1), and
rebuild only the child records of the serialised root under it. -/
def load_project (tr : TextRenderer) (a : ProjectArchive) : Nat × Nat × PNode :=
  (a.width, a.height,
    .group "Root" true 1 (build_tree_list tr a.width a.height a.images a.rootDict.children))

/-- A trivial text renderer used for concrete instances. -/
def trZero : TextRenderer := fun _ _ _ => []

mutual

/-- `find_first` from `GLCanvas.load_project`: the first paint layer (text
layers included) in pre order. -/
def find_first : PNode → Option PNode
  | .group _ _ _ cs => find_first_list cs
  | .paint n v o u img => some (.paint n v o u img)
  | .text n v o u img ti => some (.text n v o u img ti)

/-- The search over a child list, first hit wins. -/
def find_first_list : List PNode → Option PNode
  | [] => none
  | c :: cs =>
      match find_first c with
      | some r => some r
      | none => find_first_list cs

end

/-- The child list of a node (empty for leaves). -/
def PNode.childrenList : PNode → List PNode
  | .group _ _ _ cs => cs
  | _ => []

/-- The document state `GLCanvas.load_project` may mutate. -/
structure CanvasDoc where
  doc_width : Nat
  doc_height : Nat
  root : PNode
  active_layer : Option PNode
  undo_stack : UndoStack

/-- An archive file on disk, as `ProjectLogic.load_project` sees it: `none`
models every way opening can throw (malformed zip, missing or malformed
manifest, a rebuild error), `some` a readable archive. -/
abbrev ArchiveFile := Option ProjectArchive

/-- `ProjectLogic.load_project` as called by the canvas: either the loaded
triple or the raised exception. -/
def project_logic_load (tr : TextRenderer) : ArchiveFile → Except Unit (Nat × Nat × PNode)
  | none => .error ()
  | some a => .ok (load_project tr a)

/-- `GLCanvas.load_project`: on success install the loaded document, reset
the undo stack, and pick the first paint layer as active; the `except`
branch only logs, leaving every field untouched. -/
def canvas_load_project (res : Except Unit (Nat × Nat × PNode)) (c : CanvasDoc) :
    CanvasDoc :=
  match res with
  | .error _ => c
  | .ok (w, h, root) =>
      { doc_width := w, doc_height := h, root := root
        undo_stack := UndoStack.fresh 30
        active_layer := if root.childrenList.isEmpty then none else find_first root }

/-!  The stamp loop of `GLCanvas._paint_stroke`.  `dist` stands for the
float `np.sqrt(dx*dx + dy*dy)` the source computes; the theorems constrain
it to be the nonnegative square root of the squared distance. -/

/-- Python `int()` on a rational: truncation toward zero. -/
def pyInt (q : ℚ) : ℤ := q.num.tdiv q.den

/-- The stamp centres of one stroke segment: `steps = int(dist / step) + 1`
with `step = max(1.0, size * spacing)`, and one stamp at each of the `steps`
interpolated points starting at the previous position. -/
def paint_stroke_stamps (lastPos curPos : ℚ × ℚ) (dist size spacing : ℚ) :
    List (ℚ × ℚ) :=
  let step := max 1 (size * spacing)
  let steps : ℤ := pyInt (dist / step) + 1
  let dx := (curPos.1 - lastPos.1) / (steps : ℚ)
  let dy := (curPos.2 - lastPos.2) / (steps : ℚ)
  (List.range steps.toNat).map
    (fun (i : Nat) => (lastPos.1 + dx * (i : ℚ), lastPos.2 + dy * (i : ℚ)))

/-!  `SelectionTool.commit_transform` of `src/core/tools.py`.  The QPainter
affine render of a floating buffer and PIL alpha compositing are kept as
parameters; the claims below do not depend on their pixel arithmetic. -/

/-- One floating item: source layer, lifted buffer, pre lift snapshot. -/
structure FloatingItem where
  layer : Nat
  qimg : Img
  snapshot : Img

/-- The selection tool state entering a commit. -/
structure SelectionState where
  floating_items : List FloatingItem
  tf_rotation : ℚ
  tf_scale : ℚ × ℚ
  tf_pos : ℚ × ℚ

/-- The canvas state a commit can mutate: layer pixels and the undo stack. -/
structure ToolCanvas where
  layers : Layers
  undo_stack : UndoStack

/-- `commit_transform`: with no floating items, reset rotation and scale and
return without touching the canvas; otherwise render each floating buffer
through the accumulated transform, composite it over the current layer
content, push one command per affected layer, install the result, and clear
the floating set. -/
def commit_transform (renderTf : SelectionState → Img → Img)
    (alphaComposite : Img → Img → Img) (st : SelectionState) (cv : ToolCanvas) :
    SelectionState × ToolCanvas :=
  if st.floating_items.isEmpty then
    ({ st with tf_rotation := 0, tf_scale := (1, 1) }, cv)
  else
    let cv2 := st.floating_items.foldl
      (fun acc item =>
        let pasted := renderTf st item.qimg
        let curr := alphaComposite (acc.layers item.layer) pasted
        { layers := fun i => if i = item.layer then curr else acc.layers i
          undo_stack := acc.undo_stack.push
            { layer := item.layer, old_img := item.snapshot, new_img := curr } })
      cv
    ({ st with floating_items := [] }, cv2)

/-!  Helper lemmas about the undo stack. -/

theorem pushEdits_spec (cmds : List PaintCommand) :
    ∀ (s : UndoStack) (L : Layers), s.redo_list = [] →
      s.undo_list.length + cmds.length ≤ s.limit →
      pushEdits (s, L) cmds =
        ({ undo_list := s.undo_list ++ cmds, redo_list := [], limit := s.limit },
          applyAll cmds L) := by
  induction cmds with
  | nil =>
      intro s L hr _
      obtain ⟨u, r, lim⟩ := s
      simp only at hr
      subst hr
      simp [pushEdits, applyAll]
  | cons c cs ih =>
      intro s L hr h
      have hlen : s.undo_list.length + 1 ≤ s.limit := by
        simp only [List.length_cons] at h
        omega
      have hpush : s.push c =
          { undo_list := s.undo_list ++ [c], redo_list := [], limit := s.limit } := by
        simp only [UndoStack.push]
        rw [if_neg (by simp; omega)]
      have hstep : pushEdits (s, L) (c :: cs) =
          pushEdits (s.push c, c.redo L) cs := rfl
      rw [hstep, hpush, ih _ _ rfl
        (by simp only [List.length_cons] at h; simp only [List.length_append,
          List.length_singleton]; omega)]
      simp [applyAll, List.append_assoc]

theorem undoTimes_spec (l : List PaintCommand) :
    ∀ (r : List PaintCommand) (lim : Nat) (L : Layers),
      undoTimes l.length ({ undo_list := l, redo_list := r, limit := lim }, L) =
        ({ undo_list := [], redo_list := r ++ l.reverse, limit := lim }, undoAll l L) := by
  induction l using List.reverseRecOn with
  | nil => intro r lim L; simp [undoTimes, undoAll]
  | append_singleton l c ih =>
      intro r lim L
      have hlen : (l ++ [c]).length = l.length + 1 := by simp
      rw [hlen]
      have hstep :
          UndoStack.undo { undo_list := l ++ [c], redo_list := r, limit := lim } L =
            ({ undo_list := l, redo_list := r ++ [c], limit := lim }, c.undo L, true) := by
        simp [UndoStack.undo]
      show undoTimes (l.length + 1) _ = _
      rw [undoTimes, hstep]
      simp only
      rw [ih (r ++ [c]) lim (c.undo L)]
      simp [undoAll, List.foldr_append]

theorem redoTimes_spec (l : List PaintCommand) :
    ∀ (u : List PaintCommand) (lim : Nat) (L : Layers),
      redoTimes l.length ({ undo_list := u, redo_list := l, limit := lim }, L) =
        ({ undo_list := u ++ l.reverse, redo_list := [], limit := lim }, redoAll l L) := by
  induction l using List.reverseRecOn with
  | nil => intro u lim L; simp [redoTimes, redoAll]
  | append_singleton l c ih =>
      intro u lim L
      have hlen : (l ++ [c]).length = l.length + 1 := by simp
      rw [hlen]
      have hstep :
          UndoStack.redo { undo_list := u, redo_list := l ++ [c], limit := lim } L =
            ({ undo_list := u ++ [c], redo_list := l, limit := lim }, c.redo L, true) := by
        simp [UndoStack.redo]
      show redoTimes (l.length + 1) _ = _
      rw [redoTimes, hstep]
      simp only
      rw [ih (u ++ [c]) lim (c.redo L)]
      simp [redoAll, List.foldr_append]

theorem applyAll_untouched (cmds : List PaintCommand) :
    ∀ (L : Layers) (i : Nat), (∀ c ∈ cmds, c.layer ≠ i) → applyAll cmds L i = L i := by
  induction cmds with
  | nil => intro L i _; rfl
  | cons c cs ih =>
      intro L i h
      have hstep : applyAll (c :: cs) L = applyAll cs (c.redo L) := rfl
      rw [hstep, ih _ _ (fun d hd => h d (List.mem_cons_of_mem c hd))]
      simp only [PaintCommand.redo]
      rw [if_neg (fun hic => absurd hic.symm (h c (List.mem_cons_self c cs)))]

theorem undoAll_untouched (cmds : List PaintCommand) :
    ∀ (L : Layers) (i : Nat), (∀ c ∈ cmds, c.layer ≠ i) → undoAll cmds L i = L i := by
  induction cmds with
  | nil => intro L i _; rfl
  | cons c cs ih =>
      intro L i h
      have hstep : undoAll (c :: cs) L = c.undo (undoAll cs L) := rfl
      rw [hstep]
      simp only [PaintCommand.undo]
      rw [if_neg (fun hic => absurd hic.symm (h c (List.mem_cons_self c cs)))]
      exact ih _ _ (fun d hd => h d (List.mem_cons_of_mem c hd))

theorem applyAll_agree (cmds : List PaintCommand) :
    ∀ (L L' : Layers), (∀ i, (∀ c ∈ cmds, c.layer ≠ i) → L i = L' i) →
      ∀ i, applyAll cmds L i = applyAll cmds L' i := by
  induction cmds with
  | nil => intro L L' h i; exact h i (by simp)
  | cons c cs ih =>
      intro L L' h i
      have hstep : ∀ M : Layers, applyAll (c :: cs) M = applyAll cs (c.redo M) := fun _ => rfl
      rw [hstep, hstep]
      refine ih _ _ (fun j hj => ?_) i
      simp only [PaintCommand.redo]
      by_cases hjc : j = c.layer
      · simp [hjc]
      · rw [if_neg hjc, if_neg hjc]
        refine h j (fun d hd => ?_)
        rcases List.mem_cons.mp hd with hdc | hdcs
        · subst hdc; exact fun hh => hjc hh.symm
        · exact hj d hdcs

/-- Claim C1: for a fresh `UndoStack` with limit `N` and any `k ≤ N` pushed
commands, `undo()` called `k` times (each popping the newest command and
loading its before buffer) followed by `redo()` called `k` times (each
loading the after buffer, in strict LIFO order) returns every target layer
pixel buffer to exactly the state it had immediately after the last push. -/
theorem undo_redo_symmetry (N : Nat) (cmds : List PaintCommand) (L0 : Layers)
    (h : cmds.length ≤ N) :
    ∀ i, (cycledState N cmds L0).2 i = (pushedState N cmds L0).2 i := by
  have hp : pushedState N cmds L0 =
      ({ undo_list := cmds, redo_list := [], limit := N }, applyAll cmds L0) := by
    unfold pushedState
    rw [pushEdits_spec cmds (UndoStack.fresh N) L0 rfl (by simpa [UndoStack.fresh] using h)]
    simp [UndoStack.fresh]
  intro i
  unfold cycledState
  rw [hp, undoTimes_spec cmds [] N (applyAll cmds L0)]
  simp only [List.nil_append]
  conv_lhs => rw [← List.length_reverse cmds]
  rw [redoTimes_spec cmds.reverse [] N (undoAll cmds (applyAll cmds L0))]
  show redoAll cmds.reverse (undoAll cmds (applyAll cmds L0)) i = applyAll cmds L0 i
  have hfold : redoAll cmds.reverse (undoAll cmds (applyAll cmds L0)) =
      applyAll cmds (undoAll cmds (applyAll cmds L0)) := by
    unfold redoAll applyAll
    exact List.foldr_reverse cmds (fun c L => c.redo L) _
  rw [hfold]
  refine applyAll_agree cmds _ _ (fun j hj => ?_) i
  rw [undoAll_untouched cmds _ j hj, applyAll_untouched cmds _ j hj]

/-- Witness for C1 at a concrete two command history over blank layers. -/
theorem undo_redo_symmetry_witness :
    ([{ layer := 0, old_img := [5], new_img := [7] },
      { layer := 1, old_img := [2], new_img := [3] }] : List PaintCommand).length ≤ 2 ∧
    ∀ i, (cycledState 2 [{ layer := 0, old_img := [5], new_img := [7] },
            { layer := 1, old_img := [2], new_img := [3] }] blankLayers).2 i =
        (pushedState 2 [{ layer := 0, old_img := [5], new_img := [7] },
            { layer := 1, old_img := [2], new_img := [3] }] blankLayers).2 i :=
  ⟨by decide, undo_redo_symmetry 2 _ blankLayers (by decide)⟩

theorem pushEdits_undo_list (cmds : List PaintCommand) :
    ∀ (s : UndoStack) (L : Layers), s.undo_list.length ≤ s.limit →
      (pushEdits (s, L) cmds).1.undo_list =
        (s.undo_list ++ cmds).drop ((s.undo_list ++ cmds).length - s.limit) ∧
      (pushEdits (s, L) cmds).1.limit = s.limit := by
  induction cmds with
  | nil =>
      intro s L h
      refine ⟨?_, rfl⟩
      simp [pushEdits, Nat.sub_eq_zero_of_le, h]
  | cons c cs ih =>
      intro s L h
      have hd0 : s.undo_list.length + 1 - s.limit ≤ (s.undo_list ++ [c]).length := by
        simp only [List.length_append, List.length_singleton]
        omega
      have hpush1 : (s.push c).undo_list =
          (s.undo_list ++ [c]).drop (s.undo_list.length + 1 - s.limit) := by
        simp only [UndoStack.push]
        by_cases hc : s.limit < (s.undo_list ++ [c]).length
        · rw [if_pos hc]
          have h1 : s.undo_list.length + 1 - s.limit = 1 := by
            simp only [List.length_append, List.length_singleton] at hc; omega
          rw [h1, List.drop_one]
        · rw [if_neg hc]
          have h1 : s.undo_list.length + 1 - s.limit = 0 := by
            simp only [List.length_append, List.length_singleton] at hc; omega
          rw [h1, List.drop_zero]
      have hpushlen : (s.push c).undo_list.length ≤ (s.push c).limit := by
        show (s.push c).undo_list.length ≤ s.limit
        rw [hpush1]
        simp only [List.length_drop, List.length_append, List.length_singleton]
        omega
      obtain ⟨ih1, ih2⟩ := ih (s.push c) (c.redo L) hpushlen
      have hstep : pushEdits (s, L) (c :: cs) = pushEdits (s.push c, c.redo L) cs := rfl
      constructor
      · rw [hstep, ih1, hpush1]
        have hlim : (s.push c).limit = s.limit := rfl
        rw [hlim]
        have hl : s.undo_list ++ c :: cs = (s.undo_list ++ [c]) ++ cs := by simp
        rw [hl, ← List.drop_append_of_le_length hd0, List.drop_drop]
        congr 1
        simp only [List.length_append, List.length_drop, List.length_singleton,
          List.length_cons]
        omega
      · rw [hstep]; exact ih2

/-- Claim C2: pushing `limit + k` commands (`k ≥ 1`) onto a fresh stack of
limit 30 leaves exactly the newest 30 commands in `undo_list`, the `k`
oldest being evicted; and in the concrete 35 push scenario, 31 `undo()`
calls succeed exactly 30 consecutive times before the 31st fails on the
emptied stack. -/
theorem bounded_history (cmds : List PaintCommand) (k : Nat) (L0 : Layers)
    (hk : 1 ≤ k) (hlen : cmds.length = 30 + k) :
    (pushedState 30 cmds L0).1.undo_list = cmds.drop k ∧
    (pushedState 30 cmds L0).1.undo_list.length = 30 ∧
    undoResults 31 (pushedState 30 scenario35 blankLayers) =
      List.replicate 30 true ++ [false] := by
  have hmain := (pushEdits_undo_list cmds (UndoStack.fresh 30) L0
    (by simp [UndoStack.fresh])).1
  have h1 : (pushedState 30 cmds L0).1.undo_list = cmds.drop k := by
    unfold pushedState
    rw [hmain]
    simp only [UndoStack.fresh, List.nil_append]
    congr 1
    omega
  refine ⟨h1, ?_, ?_⟩
  · rw [h1, List.length_drop, hlen]
    omega
  · set_option maxRecDepth 8000 in decide

/-- Witness for C2 at a concrete 31 command history. -/
theorem bounded_history_witness :
    (pushedState 30 ((List.range 31).map
        (fun i => { layer := i, old_img := [], new_img := [i] })) blankLayers).1.undo_list =
      ((List.range 31).map
        (fun i => { layer := i, old_img := [], new_img := [i] })).drop 1 ∧
    (pushedState 30 ((List.range 31).map
        (fun i => { layer := i, old_img := [], new_img := [i] })) blankLayers).1.undo_list.length
      = 30 := by
  have h := bounded_history ((List.range 31).map
      (fun i => { layer := i, old_img := [], new_img := [i] })) 1 blankLayers
    (by decide) (by decide)
  exact ⟨h.1, h.2.1⟩

theorem runHistOps_invariant (ops : List HistOp) :
    ∀ (s : UndoStack) (L : Layers),
      s.undo_list.length + s.redo_list.length ≤ s.limit →
      (runHistOps (s, L) ops).1.limit = s.limit ∧
      (runHistOps (s, L) ops).1.undo_list.length +
        (runHistOps (s, L) ops).1.redo_list.length ≤ s.limit := by
  induction ops with
  | nil => intro s L h; exact ⟨rfl, h⟩
  | cons op ops ih =>
      intro s L h
      cases op with
      | push c =>
          have hstep : runHistOps (s, L) (.push c :: ops) =
              runHistOps (s.push c, c.redo L) ops := rfl
          have hinv : (s.push c).undo_list.length + (s.push c).redo_list.length ≤
              (s.push c).limit := by
            simp only [UndoStack.push]
            by_cases hc : s.limit < (s.undo_list ++ [c]).length
            · rw [if_pos hc]
              simp only [List.length_tail, List.length_append, List.length_singleton,
                List.length_nil]
              omega
            · rw [if_neg hc]
              simp only [List.length_append, List.length_singleton, List.length_nil] at hc ⊢
              omega
          rw [hstep]
          exact ih (s.push c) (c.redo L) hinv
      | undo =>
          cases heq : s.undo_list.getLast? with
          | none =>
              have hstep : runHistOps (s, L) (.undo :: ops) = runHistOps (s, L) ops := by
                show runHistOps ((s.undo L).1, (s.undo L).2.1) ops = runHistOps (s, L) ops
                simp [UndoStack.undo, heq]
              rw [hstep]
              exact ih s L h
          | some c =>
              have hne : s.undo_list ≠ [] := by
                intro hnil; rw [hnil] at heq; simp at heq
              have hstep : runHistOps (s, L) (.undo :: ops) =
                  runHistOps (⟨s.undo_list.dropLast, s.redo_list ++ [c], s.limit⟩,
                    c.undo L) ops := by
                show runHistOps ((s.undo L).1, (s.undo L).2.1) ops = _
                simp [UndoStack.undo, heq]
              rw [hstep]
              have hpos : 1 ≤ s.undo_list.length := List.length_pos.mpr hne
              refine ih _ (c.undo L) ?_
              simp only [List.length_dropLast, List.length_append, List.length_singleton]
              omega
      | redo =>
          cases heq : s.redo_list.getLast? with
          | none =>
              have hstep : runHistOps (s, L) (.redo :: ops) = runHistOps (s, L) ops := by
                show runHistOps ((s.redo L).1, (s.redo L).2.1) ops = runHistOps (s, L) ops
                simp [UndoStack.redo, heq]
              rw [hstep]
              exact ih s L h
          | some c =>
              have hne : s.redo_list ≠ [] := by
                intro hnil; rw [hnil] at heq; simp at heq
              have hstep : runHistOps (s, L) (.redo :: ops) =
                  runHistOps (⟨s.undo_list ++ [c], s.redo_list.dropLast, s.limit⟩,
                    c.redo L) ops := by
                show runHistOps ((s.redo L).1, (s.redo L).2.1) ops = _
                simp [UndoStack.redo, heq]
              rw [hstep]
              have hpos : 1 ≤ s.redo_list.length := List.length_pos.mpr hne
              refine ih _ (c.redo L) ?_
              simp only [List.length_dropLast, List.length_append, List.length_singleton]
              omega

/-- Claim C10: starting from a fresh `UndoStack` with limit `N`, after any
finite sequence of push, undo, and redo operations the two lists together
hold at most `N` commands (so redo can never regrow the history past the
bound); every intermediate state is the final state of some prefix, so the
bound holds at every point. -/
theorem history_size_bound (N : Nat) (ops : List HistOp) (L0 : Layers) :
    (runHistOps (UndoStack.fresh N, L0) ops).1.undo_list.length +
      (runHistOps (UndoStack.fresh N, L0) ops).1.redo_list.length ≤ N :=
  (runHistOps_invariant ops (UndoStack.fresh N) L0 (by simp [UndoStack.fresh])).2

/-!  Chain transfer lemmas for the acyclicity part of the tree invariant. -/

theorem iterParent_agree_of_avoid (s s' : Forest) (c : Nat)
    (hagree : ∀ n, n ≠ c → s'.parent n = s.parent n) :
    ∀ j n, (∀ j2, s.iterParent j2 n ≠ some c) →
      s'.iterParent j n = s.iterParent j n := by
  intro j
  induction j with
  | zero => intro n _; rfl
  | succ j ih =>
      intro n havoid
      have hn : n ≠ c := by
        intro hnc
        exact havoid 0 (by rw [hnc]; rfl)
      simp only [Forest.iterParent]
      rw [hagree n hn]
      cases hp : s.parent n with
      | none => rfl
      | some m =>
          refine ih m (fun j2 => ?_)
          have := havoid (j2 + 1)
          simp only [Forest.iterParent, hp] at this
          exact this

theorem iterParent_dies_transfer (s s' : Forest) (c : Nat)
    (hagree : ∀ n, n ≠ c → s'.parent n = s.parent n)
    (hc : ∃ k, s'.iterParent k c = none) :
    ∀ j n, s.iterParent j n = none → ∃ k, s'.iterParent k n = none := by
  intro j
  induction j with
  | zero =>
      intro n h
      exact absurd h (by simp [Forest.iterParent])
  | succ j ih =>
      intro n h
      by_cases hn : n = c
      · subst hn; exact hc
      · simp only [Forest.iterParent] at h
        cases hp : s.parent n with
        | none => exact ⟨1, by simp [Forest.iterParent, hagree n hn, hp]⟩
        | some m =>
            simp only [hp] at h
            obtain ⟨k, hk⟩ := ih m h
            refine ⟨k + 1, ?_⟩
            simp only [Forest.iterParent, hagree n hn, hp]
            exact hk

/-- Claim C3 (amended): `remove_child` always preserves the tree consistency
invariant, and `add_child` preserves it provided the added node currently
has no parent and the receiver is not reachable from it (in particular is
not the node itself); `add_child` on a node that already has a parent breaks
the invariant, because the node stays in the old parent child list while its
parent reference is repointed. -/
theorem tree_edit_invariant (s : Forest) (p c : Nat) (hs : s.Inv) :
    (s.parent c = none → (∀ k, s.iterParent k p ≠ some c) → (s.add_child p c).Inv) ∧
    (s.remove_child p c).Inv := by
  obtain ⟨h1, h2, h3, h4⟩ := hs
  constructor
  · intro hpc hreach
    refine ⟨?_, ?_, ?_, ?_⟩
    · intro m n hmem
      simp only [Forest.add_child] at hmem ⊢
      by_cases hmp : m = p
      · rw [if_pos hmp] at hmem
        rcases List.mem_append.mp hmem with hold | hnew
        · have hpar := h1 p n hold
          have hn : n ≠ c := by
            intro hnc; rw [hnc, hpc] at hpar; exact Option.noConfusion hpar
          rw [if_neg hn, hmp]; exact hpar
        · have hnc : n = c := by simpa using hnew
          rw [if_pos hnc, hmp]
      · rw [if_neg hmp] at hmem
        have hpar := h1 m n hmem
        have hn : n ≠ c := by
          intro hnc; rw [hnc, hpc] at hpar; exact Option.noConfusion hpar
        rw [if_neg hn]; exact hpar
    · intro n m hpar
      simp only [Forest.add_child] at hpar ⊢
      by_cases hn : n = c
      · rw [if_pos hn] at hpar
        have hmp : m = p := (Option.some.inj hpar).symm
        rw [if_pos hmp, hn]
        exact List.mem_append_right _ (by simp)
      · rw [if_neg hn] at hpar
        have hmem := h2 n m hpar
        by_cases hmp : m = p
        · rw [if_pos hmp]
          rw [hmp] at hmem
          exact List.mem_append_left _ hmem
        · rw [if_neg hmp]; exact hmem
    · intro m
      simp only [Forest.add_child]
      by_cases hmp : m = p
      · rw [if_pos hmp]
        have hcnotin : c ∉ s.children p := by
          intro hmem
          have := h1 p c hmem
          rw [hpc] at this
          exact Option.noConfusion this
        simp [List.nodup_append, h3 p, hcnotin]
      · rw [if_neg hmp]; exact h3 m
    · have hagree : ∀ n, n ≠ c → (s.add_child p c).parent n = s.parent n := by
        intro n hn; simp [Forest.add_child, hn]
      have hpdies : ∃ k, (s.add_child p c).iterParent k p = none := by
        obtain ⟨k, hk⟩ := h4 p
        refine ⟨k, ?_⟩
        rw [iterParent_agree_of_avoid s (s.add_child p c) c hagree k p hreach]
        exact hk
      have hcdies : ∃ k, (s.add_child p c).iterParent k c = none := by
        obtain ⟨k, hk⟩ := hpdies
        refine ⟨k + 1, ?_⟩
        have hcp : (s.add_child p c).parent c = some p := by simp [Forest.add_child]
        simp only [Forest.iterParent, hcp]
        exact hk
      intro n
      obtain ⟨j, hj⟩ := h4 n
      exact iterParent_dies_transfer s (s.add_child p c) c hagree hcdies j n hj
  · by_cases hmem : c ∈ s.children p
    · simp only [Forest.remove_child, if_pos hmem]
      refine ⟨?_, ?_, ?_, ?_⟩
      · intro m n hm
        dsimp only at hm ⊢
        by_cases hmp : m = p
        · rw [if_pos hmp] at hm
          obtain ⟨hne, hin⟩ := (h3 p).mem_erase_iff.mp hm
          rw [if_neg hne, hmp]
          exact h1 p n hin
        · rw [if_neg hmp] at hm
          have hpar := h1 m n hm
          have hne : n ≠ c := by
            intro hnc
            rw [hnc] at hpar
            have hcp := h1 p c hmem
            have heq := hcp.symm.trans hpar
            exact hmp (Option.some.inj heq).symm
          rw [if_neg hne]
          exact hpar
      · intro n m hp2
        dsimp only at hp2 ⊢
        by_cases hnc : n = c
        · rw [if_pos hnc] at hp2
          exact absurd hp2 (by simp)
        · rw [if_neg hnc] at hp2
          have hin := h2 n m hp2
          by_cases hmp : m = p
          · rw [if_pos hmp]
            rw [hmp] at hin
            exact (h3 p).mem_erase_iff.mpr ⟨hnc, hin⟩
          · rw [if_neg hmp]; exact hin
      · intro m
        dsimp only
        by_cases hmp : m = p
        · rw [if_pos hmp]; exact (h3 p).erase c
        · rw [if_neg hmp]; exact h3 m
      · intro n
        obtain ⟨j, hj⟩ := h4 n
        refine iterParent_dies_transfer s
          ⟨fun n => if n = c then none else s.parent n,
            fun n => if n = p then (s.children p).erase c else s.children n⟩ c
          (fun x hx => by dsimp only; rw [if_neg hx]) ⟨1, by simp [Forest.iterParent]⟩
          j n hj
    · simp only [Forest.remove_child, if_neg hmem]
      exact ⟨h1, h2, h3, h4⟩

theorem exForest_inv : exForest.Inv := by
  refine ⟨?_, ?_, ?_, ?_⟩
  · intro m n hmem
    simp only [exForest] at hmem ⊢
    by_cases hm : m = 0
    · subst hm
      rw [if_pos rfl] at hmem
      have hn : n = 1 := by simpa using hmem
      subst hn
      simp
    · rw [if_neg hm] at hmem
      simp at hmem
  · intro n m hpar
    simp only [exForest] at hpar ⊢
    by_cases hn : n = 1
    · subst hn
      rw [if_pos rfl] at hpar
      have hm : m = 0 := (Option.some.inj hpar).symm
      subst hm
      simp
    · rw [if_neg hn] at hpar
      exact absurd hpar (by simp)
  · intro m
    by_cases hm : m = 0 <;> simp [exForest, hm]
  · intro n
    by_cases hn : n = 1
    · subst hn
      exact ⟨2, by simp [Forest.iterParent, exForest]⟩
    · exact ⟨1, by simp [Forest.iterParent, exForest, hn]⟩

/-- Counterexample to C3 as stated: the invariant holds of `exForest`, where
node 1 is a child of node 0, yet calling `add_child` on node 2 with the
already parented node 1 leaves node 1 inside the child list of node 0 while
its parent reference now names node 2, so the invariant fails. -/
theorem add_child_breaks_invariant :
    exForest.Inv ∧ ¬ (exForest.add_child 2 1).Inv := by
  refine ⟨exForest_inv, ?_⟩
  intro hinv
  have hmem : (1 : Nat) ∈ (exForest.add_child 2 1).children 0 := by
    simp [Forest.add_child, exForest]
  have h1 := hinv.1 0 1 hmem
  have h2 : (exForest.add_child 2 1).parent 1 = some 2 := by
    simp [Forest.add_child]
  rw [h2] at h1
  exact absurd (Option.some.inj h1) (by decide)

/-- Witness for C3 at concrete edits on `exForest`: adding the fresh
parentless node 2 under node 0, and removing node 1 from node 0. -/
theorem tree_edit_invariant_witness :
    (exForest.add_child 0 2).Inv ∧ (exForest.remove_child 0 1).Inv := by
  constructor
  · refine (tree_edit_invariant exForest 0 2 exForest_inv).1 (by simp [exForest]) ?_
    intro k
    cases k with
    | zero => simp [Forest.iterParent]
    | succ k => simp [Forest.iterParent, exForest]
  · exact (tree_edit_invariant exForest 0 1 exForest_inv).2

/-- Counterexample to C4 as stated: at a fully opaque white destination
pixel, an eraser stamp with opacity 1 and tip alpha 1 drives the red channel
from 1 to 0, so the colour channels are not left untouched. -/
theorem eraser_color_changed :
    ¬ ((eraserStamp 1 1 { r := 1, g := 1, b := 1, a := 1 }).r =
        ({ r := 1, g := 1, b := 1, a := 1 } : RGBA).r ∧
      (eraserStamp 1 1 { r := 1, g := 1, b := 1, a := 1 }).a =
        ({ r := 1, g := 1, b := 1, a := 1 } : RGBA).a * (1 - 1 * 1)) := by
  intro h
  have hr := h.1
  simp only [eraserStamp, blendZeroOneMinusSrcAlpha, modulate, eraserTipTexel] at hr
  norm_num at hr

/-- Claim C4 (amended): an eraser stamp with source coverage
`opacity * tipAlpha` scales the destination alpha by one minus that
coverage, as claimed, but scales each destination colour channel by the same
factor as well (the blend factors of `glBlendFunc` apply to all four
channels), rather than leaving colour untouched. -/
theorem eraser_stamp_spec (opacity tipAlpha : ℚ) (dst : RGBA) :
    eraserStamp opacity tipAlpha dst =
      { r := dst.r * (1 - opacity * tipAlpha)
        g := dst.g * (1 - opacity * tipAlpha)
        b := dst.b * (1 - opacity * tipAlpha)
        a := dst.a * (1 - opacity * tipAlpha) } := by
  simp only [eraserStamp, blendZeroOneMinusSrcAlpha, modulate, eraserTipTexel,
    RGBA.mk.injEq]
  refine ⟨by ring, by ring, by ring, by ring⟩

/-- Claim C5: with every node visible, a paint layer of opacity `o3` inside
groups of opacities `o2` and `o1` under the document root is drawn with the
opacity factor `o1 * o2 * o3`, the opacity of the root itself excluded (the
result does not depend on `rootOp`); and if either enclosing group is
invisible the subtree is skipped, so the layer issues no draw call at all,
whatever `o3`. -/
theorem opacity_composition (rootOp o1 o2 o3 : ℚ) (lid : Nat) :
    (render_root (nestedDoc rootOp o1 o2 o3 true true true lid) =
        [(lid, o3 * (o2 * (o1 * 1)))] ∧
      o3 * (o2 * (o1 * 1)) = o1 * o2 * o3) ∧
    (∀ v1 v2 v3 : Bool, v1 = false ∨ v2 = false →
      render_root (nestedDoc rootOp o1 o2 o3 v1 v2 v3 lid) = []) := by
  constructor
  · constructor
    · simp [render_root, nestedDoc, render_children, render_node, get_parent_opacity]
    · ring
  · intro v1 v2 v3 h
    rcases h with h | h
    · rw [h]
      simp [render_root, nestedDoc, render_children, render_node]
    · rw [h]
      cases v1 <;>
        simp [render_root, nestedDoc, render_children, render_node]

/-- Witness for C5 at concrete opacities, both for the visible product case
and for an invisible inner group. -/
theorem opacity_composition_witness :
    (render_root (nestedDoc (1/2) (1/3) (1/5) (1/7) true true true 4) =
        [(4, (1/7 : ℚ) * ((1/5) * ((1/3) * 1)))]) ∧
    render_root (nestedDoc (1/2) (1/3) (1/5) (1/7) true false true 4) = [] :=
  ⟨((opacity_composition (1/2) (1/3) (1/5) (1/7) 4).1).1,
    (opacity_composition (1/2) (1/3) (1/5) (1/7) 4).2 true false true (Or.inr rfl)⟩

theorem lookup_eq_of_mem_of_nodup (l : List (Option Nat × Img)) (u : Option Nat)
    (v : Img) (hn : (l.map Prod.fst).Nodup) (h : (u, v) ∈ l) :
    l.lookup u = some v := by
  induction l with
  | nil => simp at h
  | cons q qs ih =>
      simp only [List.map_cons, List.nodup_cons] at hn
      rcases List.mem_cons.mp h with h1 | h1
      · rw [← h1]
        simp [List.lookup]
      · have hne : (u == q.1) = false := by
          refine beq_eq_false_iff_ne.mpr ?_
          intro hu
          exact hn.1 (List.mem_map.mpr ⟨(u, v), h1, by rw [hu]⟩)
        simp [List.lookup, hne, ih hn.2 h1]

mutual

theorem build_to_dict (tr : TextRenderer) (w h : Nat)
    (store : List (Option Nat × Img)) :
    ∀ t : PNode,
      (∀ u v, (u, v) ∈ save_layer_images t → store.lookup u = some v) →
      build_tree tr w h store (to_dict t) = some t
  | .group nm vis op cs, hst => by
      have hrec := build_to_dict_list tr w h store cs
        (fun u v hm => hst u v (by rw [save_layer_images]; exact hm))
      simp [to_dict, build_tree, hrec]
  | .paint nm vis op u img, hst => by
      have hlook : store.lookup u = some img :=
        hst u img (by rw [save_layer_images]; exact List.mem_singleton_self _)
      simp [to_dict, build_tree, hlook]
  | .text nm vis op u img ti, hst => by
      have hlook : store.lookup u = some img :=
        hst u img (by rw [save_layer_images]; exact List.mem_singleton_self _)
      simp [to_dict, build_tree, hlook]

theorem build_to_dict_list (tr : TextRenderer) (w h : Nat)
    (store : List (Option Nat × Img)) :
    ∀ cs : List PNode,
      (∀ u v, (u, v) ∈ save_images_list cs → store.lookup u = some v) →
      build_tree_list tr w h store (to_dict_list cs) = cs
  | [], _ => by rw [to_dict_list, build_tree_list]
  | c :: cs, hst => by
      have hc := build_to_dict tr w h store c
        (fun u v hm => hst u v
          (by rw [save_images_list]; exact List.mem_append_left _ hm))
      have hcs := build_to_dict_list tr w h store cs
        (fun u v hm => hst u v
          (by rw [save_images_list]; exact List.mem_append_right _ hm))
      rw [to_dict_list, build_tree_list, hc, hcs]

end

/-- Claim C6 (amended): saving a document and loading the produced archive
reproduces the child subtrees of the root exactly, with the same shape,
child order, names, visible flags, opacities, uuids, text attributes, and
pixel contents, and the saved width and height, provided the per layer image
keys (the uuids) are distinct; the attributes of the root itself are not
restored: the loaded root is always a fresh default `GroupLayer("Root")`
with visibility on and opacity 1. -/
theorem save_load_roundtrip (tr : TextRenderer) (nm : String) (vis : Bool)
    (op : ℚ) (cs : List PNode) (w h : Nat)
    (hn : ((save_layer_images (.group nm vis op cs)).map Prod.fst).Nodup) :
    load_project tr (save_project (.group nm vis op cs) w h) =
      (w, h, .group "Root" true 1 cs) := by
  have hst : ∀ u v, (u, v) ∈ save_images_list cs →
      (save_layer_images (.group nm vis op cs)).lookup u = some v := by
    intro u v hm
    refine lookup_eq_of_mem_of_nodup _ u v hn ?_
    rw [save_layer_images]
    exact hm
  have hchild : (to_dict (.group nm vis op cs)).children = to_dict_list cs := by
    rw [to_dict]
    rfl
  unfold load_project save_project
  dsimp only
  rw [hchild, build_to_dict_list tr w h _ cs hst]

/-- Counterexample to C6 as stated: a document whose root carries opacity
one half round trips to a root of opacity 1, so the attributes of the root
itself are not reproduced. -/
theorem roundtrip_root_reset :
    load_project trZero (save_project (.group "Root" true (1/2) []) 5 6) ≠
      ((5, 6, .group "Root" true (1/2) []) : Nat × Nat × PNode) := by
  intro hEq
  have hload : load_project trZero (save_project (.group "Root" true (1/2) []) 5 6) =
      (5, 6, .group "Root" true 1 []) := by
    simp [load_project, save_project, to_dict, to_dict_list, build_tree_list,
      NodeDict.children]
  rw [hload] at hEq
  simp only [Prod.mk.injEq, PNode.group.injEq, true_and] at hEq
  norm_num at hEq

/-- Witness for C6 at a concrete one layer document. -/
theorem save_load_roundtrip_witness :
    load_project trZero (save_project
        (.group "Root" true 1 [.paint "L1" true 1 (some 3) [9]]) 4 4) =
      (4, 4, .group "Root" true 1 [.paint "L1" true 1 (some 3) [9]]) := by
  refine save_load_roundtrip trZero "Root" true 1 _ 4 4 ?_
  simp [save_layer_images, save_images_list]

theorem pyInt_eq_floor (q : ℚ) (h : 0 ≤ q) : pyInt q = ⌊q⌋ := by
  rw [pyInt, Rat.floor_def]
  exact Int.tdiv_eq_ediv (Rat.num_nonneg.mpr h) (Int.natCast_nonneg q.den)

/-- Claim C7: one stroke segment emits exactly
`max(1, floor(dist / max(1, size * spacing)) + 1)` stamps, where `dist` is
the nonnegative square root of the squared pointer distance; in particular a
single click (`p1 = p2`, hence `dist = 0`) emits exactly one stamp. -/
theorem stroke_stamp_count (p1 p2 : ℚ × ℚ) (dist size spacing : ℚ)
    (hd0 : 0 ≤ dist)
    (hdist : dist * dist =
      (p2.1 - p1.1) * (p2.1 - p1.1) + (p2.2 - p1.2) * (p2.2 - p1.2)) :
    (paint_stroke_stamps p1 p2 dist size spacing).length =
      (max 1 (⌊dist / max 1 (size * spacing)⌋ + 1)).toNat ∧
    (p1 = p2 → (paint_stroke_stamps p1 p2 dist size spacing).length = 1) := by
  have hstep : (0 : ℚ) < max 1 (size * spacing) :=
    lt_of_lt_of_le one_pos (le_max_left _ _)
  have hq : 0 ≤ dist / max 1 (size * spacing) := div_nonneg hd0 hstep.le
  have hfl : 0 ≤ ⌊dist / max 1 (size * spacing)⌋ := Int.floor_nonneg.mpr hq
  have hlen : (paint_stroke_stamps p1 p2 dist size spacing).length =
      (⌊dist / max 1 (size * spacing)⌋ + 1).toNat := by
    simp only [paint_stroke_stamps, List.length_map, List.length_range]
    rw [pyInt_eq_floor _ hq]
  constructor
  · rw [hlen, max_eq_right (by omega : (1 : ℤ) ≤ ⌊dist / max 1 (size * spacing)⌋ + 1)]
  · intro hp
    have hzero : dist = 0 := by
      have h2 : dist * dist = 0 := by rw [hdist, hp]; ring
      exact mul_self_eq_zero.mp h2
    rw [hlen, hzero]
    simp

/-- Witness for C7 at the 3-4-5 segment with brush size 2, spacing one
half. -/
theorem stroke_stamp_count_witness :
    (paint_stroke_stamps ((0 : ℚ), (0 : ℚ)) ((3 : ℚ), (4 : ℚ)) 5 2 (1/2)).length =
      (max 1 (⌊(5 : ℚ) / max 1 (2 * (1/2))⌋ + 1)).toNat :=
  (stroke_stamp_count ((0 : ℚ), (0 : ℚ)) ((3 : ℚ), (4 : ℚ)) 5 2 (1/2)
    (by norm_num) (by norm_num)).1

/-- Claim C8: with an empty floating set, `commit_transform` pushes no
command onto the undo stack and changes no layer pixels (it only resets the
cached rotation and scale; a normal no-op, not an error). -/
theorem commit_transform_empty_noop (renderTf : SelectionState → Img → Img)
    (alphaComposite : Img → Img → Img) (st : SelectionState) (cv : ToolCanvas)
    (h : st.floating_items = []) :
    (commit_transform renderTf alphaComposite st cv).2.undo_stack = cv.undo_stack ∧
    (commit_transform renderTf alphaComposite st cv).2.layers = cv.layers := by
  have hemp : st.floating_items.isEmpty = true := by rw [h]; rfl
  simp [commit_transform, hemp]

/-- Witness for C8 at a concrete empty selection over a canvas with content. -/
theorem commit_transform_empty_noop_witness :
    (commit_transform (fun _ i => i) (fun a _ => a)
        { floating_items := []
          tf_rotation := 3
          tf_scale := (2, 2)
          tf_pos := (1, 1) }
        { layers := fun _ => [7]
          undo_stack := UndoStack.fresh 30 }).2.undo_stack =
      ({ layers := fun _ => [7]
         undo_stack := UndoStack.fresh 30 } : ToolCanvas).undo_stack ∧
    (commit_transform (fun _ i => i) (fun a _ => a)
        { floating_items := []
          tf_rotation := 3
          tf_scale := (2, 2)
          tf_pos := (1, 1) }
        { layers := fun _ => [7]
          undo_stack := UndoStack.fresh 30 }).2.layers =
      ({ layers := fun _ => [7]
         undo_stack := UndoStack.fresh 30 } : ToolCanvas).layers :=
  commit_transform_empty_noop _ _ _ _ rfl

/-- Claim C9: whenever `ProjectLogic.load_project` fails (malformed zip,
missing or malformed manifest, any rebuild error), the canvas `except`
handler only logs, so the live document, its dimensions, the active layer,
and the undo stack keep their prior values: a failed load never partially
mutates the in-memory document. -/
theorem load_failure_leaves_canvas (tr : TextRenderer) (f : ArchiveFile)
    (c : CanvasDoc) (e : Unit) (h : project_logic_load tr f = .error e) :
    canvas_load_project (project_logic_load tr f) c = c := by
  rw [h]
  rfl

/-- Witness for C9 at an unreadable archive file over a concrete canvas. -/
theorem load_failure_leaves_canvas_witness :
    canvas_load_project (project_logic_load trZero none)
        { doc_width := 1
          doc_height := 1
          root := .group "Root" true 1 []
          active_layer := none
          undo_stack := UndoStack.fresh 30 } =
      ({ doc_width := 1
         doc_height := 1
         root := .group "Root" true 1 []
         active_layer := none
         undo_stack := UndoStack.fresh 30 } : CanvasDoc) :=
  load_failure_leaves_canvas trZero none _ () rfl

end AiPainter
